import Mathlib

/-!
Verification of the animation resolution and resampling pipeline of
`skelatool64` (`src/definition_generator/AnimationGenerator.cpp`).

The embedding models C++ `float`/`double` arithmetic with exact rational
arithmetic (`ℚ`): every numeric claim checked here is about the algebraic
computation the source performs, not about floating-point rounding.
Machine-integer casts that the source performs on in-range values
(`(short)` casts of quantized components) are modelled as truncation
toward zero on `ℤ`.

Source structures from the assimp library (`aiVector3D`, `aiQuaternion`,
`aiVectorKey`, `aiQuatKey`, `aiNodeAnim`, `aiAnimation`, `aiNode`) are
embedded as records over `ℚ`, with lists standing for the
pointer-plus-count arrays of the C API.
-/

/-- `aiVector3D`: a 3-component vector. The assimp default constructor
zero-initializes all components. -/
structure Vec3 where
  x : ℚ
  y : ℚ
  z : ℚ
deriving DecidableEq, Repr

/-- `aiQuaternion`: field order `(w, x, y, z)` as in assimp. The assimp
default constructor yields the identity rotation `(1, 0, 0, 0)`. -/
structure Quat where
  w : ℚ
  x : ℚ
  y : ℚ
  z : ℚ
deriving DecidableEq, Repr

/-- Component-wise vector sum (`aiVector3D::operator+`). -/
def vadd (a b : Vec3) : Vec3 :=
  ⟨a.x + b.x, a.y + b.y, a.z + b.z⟩

/-- Component-wise vector difference (`aiVector3D::operator-`). -/
def vsub (a b : Vec3) : Vec3 :=
  ⟨a.x - b.x, a.y - b.y, a.z - b.z⟩

/-- Scalar multiple of a vector (`aiVector3D::operator*(TReal)`). -/
def vscale (s : ℚ) (v : Vec3) : Vec3 :=
  ⟨s * v.x, s * v.y, s * v.z⟩

/-- Hamilton product (`aiQuaternion::operator*` in assimp). -/
def quatMul (a b : Quat) : Quat :=
  ⟨a.w * b.w - a.x * b.x - a.y * b.y - a.z * b.z,
   a.w * b.x + a.x * b.w + a.y * b.z - a.z * b.y,
   a.w * b.y + a.y * b.w + a.z * b.x - a.x * b.z,
   a.w * b.z + a.z * b.w + a.x * b.y - a.y * b.x⟩

/-- Quaternion conjugate (`aiQuaternion::Conjugate`). -/
def quatConjugate (q : Quat) : Quat :=
  ⟨q.w, -q.x, -q.y, -q.z⟩

/-- `aiQuaternion::Rotate`: rotate a vector by a quaternion via
`q * (0, v) * conj(q)`, keeping the vector part. -/
def quatRotate (q : Quat) (v : Vec3) : Vec3 :=
  let q2 : Quat := ⟨0, v.x, v.y, v.z⟩
  let r := quatMul (quatMul q q2) (quatConjugate q)
  ⟨r.x, r.y, r.z⟩

/-- Negation of a quaternion (same rotation, opposite sign). -/
def quatNeg (q : Quat) : Quat :=
  ⟨-q.w, -q.x, -q.y, -q.z⟩

/-- `aiVectorKey`: a time-stamped position key. -/
structure VectorKey where
  mTime : ℚ
  mValue : Vec3
deriving DecidableEq, Repr

/-- `aiQuatKey`: a time-stamped rotation key. -/
structure QuatKey where
  mTime : ℚ
  mValue : Quat
deriving DecidableEq, Repr

/-!
### `findStartValue` (AnimationGenerator.cpp lines 103–123)

The C++ loop scans indices `0, 1, …, keyCount-1` looking for the first
key whose time is `≥ at`.  On a hit at index `i > 0` it decrements to
`i - 1` and computes the interpolation factor from the times of keys
`i - 1` and `i`; on a hit at `i = 0` the factor is `0`; when the loop
runs off the end, `startValue` has been incremented to `keyCount` and
the factor keeps the caller's initialization of `0`.

The embedding scans the same list carrying the running index `i` and
the time of the previously scanned key (`none` exactly while `i = 0`),
which is the state the C++ loop reads when it hits.
-/

/-- Loop body of `findStartValue`: `rest` is the unscanned suffix, `i` the
index of its head in the full key list, `prev` the time of key `i - 1`
(`none` iff `i = 0`). Returns `(startValue, lerp)`. -/
def findStartValueGo {α : Type} (mTime : α → ℚ) (atTime : ℚ) :
    List α → ℕ → Option ℚ → ℕ × ℚ
  | [], i, _ => (i, 0)
  | k :: rest, i, prev =>
    if atTime ≤ mTime k then
      match prev with
      | none => (0, 0)
      | some tprev =>
        let deltaTime := mTime k - tprev
        if deltaTime = 1 then (i - 1, 0)
        else (i - 1, (atTime - tprev) / deltaTime)
    else
      findStartValueGo mTime atTime rest (i + 1) (some (mTime k))

/-- `findStartValue(keys, keyCount, at, startValue, lerp)`; the returned
pair is `(startValue, lerp)` with `lerp = 0` whenever the source leaves
the caller's initialization in place. -/
def findStartValue {α : Type} (mTime : α → ℚ) (keys : List α) (atTime : ℚ) :
    ℕ × ℚ :=
  findStartValueGo mTime atTime keys 0 none

/-- `evaluateVectorAt` (lines 125–147): empty track → zero vector, single
key → that key, otherwise linear interpolation between the two keys
bracketing `at`, or the last key when the query is past every key.
Out-of-range indexing cannot occur (see the bounds theorem below), so
list indexing uses a default value. -/
def evaluateVectorAt (keys : List VectorKey) (atTime : ℚ) : Vec3 :=
  if keys.length = 0 then ⟨0, 0, 0⟩
  else if keys.length = 1 then (keys.getD 0 ⟨0, ⟨0, 0, 0⟩⟩).mValue
  else
    let sl := findStartValue VectorKey.mTime keys atTime
    if sl.1 = keys.length then
      (keys.getD (keys.length - 1) ⟨0, ⟨0, 0, 0⟩⟩).mValue
    else
      let vfrom := (keys.getD sl.1 ⟨0, ⟨0, 0, 0⟩⟩).mValue
      let vto := (keys.getD (sl.1 + 1) ⟨0, ⟨0, 0, 0⟩⟩).mValue
      vadd (vscale sl.2 (vsub vto vfrom)) vfrom

/-- `evaluateQuaternionAt` (lines 149–174).  The spherical interpolation
routine `aiQuaternion::Interpolate` is transcendental library code; it is
taken as a parameter `interp from to factor`, which none of the claims
about this function depend on. -/
def evaluateQuaternionAt (interp : Quat → Quat → ℚ → Quat)
    (keys : List QuatKey) (atTime : ℚ) : Quat :=
  if keys.length = 0 then ⟨1, 0, 0, 0⟩
  else if keys.length = 1 then (keys.getD 0 ⟨0, ⟨1, 0, 0, 0⟩⟩).mValue
  else
    let sl := findStartValue QuatKey.mTime keys atTime
    if sl.1 = keys.length then
      (keys.getD (keys.length - 1) ⟨0, ⟨1, 0, 0, 0⟩⟩).mValue
    else
      let qfrom := (keys.getD sl.1 ⟨0, ⟨1, 0, 0, 0⟩⟩).mValue
      let qto := (keys.getD (sl.1 + 1) ⟨0, ⟨1, 0, 0, 0⟩⟩).mValue
      interp qfrom qto sl.2

example : evaluateVectorAt [⟨0, ⟨0, 0, 0⟩⟩, ⟨10, ⟨4, 2, 0⟩⟩] 5 = ⟨2, 1, 0⟩ := by
  norm_num [evaluateVectorAt, findStartValue, findStartValueGo, vadd, vsub, vscale]

example : evaluateVectorAt [⟨0, ⟨0, 0, 0⟩⟩, ⟨1, ⟨4, 2, 0⟩⟩] 1 = ⟨0, 0, 0⟩ := by
  norm_num [evaluateVectorAt, findStartValue, findStartValueGo, vadd, vsub, vscale]

/-!
### Resampling pipeline data (AnimationGenerator.cpp lines 176–263)
-/

/-- `aiNodeAnim`: one animation channel, targeting the node named
`mNodeName`, with sparse position and rotation key tracks. -/
structure AiNodeAnim where
  mNodeName : String
  mPositionKeys : List VectorKey
  mRotationKeys : List QuatKey

/-- `aiAnimation`: a source clip with its duration in source ticks, its
source tick rate, and its channels. -/
structure AiAnimation where
  mName : String
  mDuration : ℚ
  mTicksPerSecond : ℚ
  mChannels : List AiNodeAnim

/-- The slice of `Bone` (BoneHierarchy.h) the resampler reads: its name
and whether it has a parent bone (`bone->GetParent()`). -/
structure BoneInfo where
  name : String
  hasParent : Bool

/-- The slice of `DisplayListSettings` the animation pipeline reads. -/
structure DisplayListSettings where
  mTicksPerSecond : ℚ
  mModelScale : ℚ
  mFixedPointScale : ℚ
  mRotateModel : Quat

/-- Line 177: `int nFrames = ceil(animation.mDuration *
settings.mTicksPerSecond / animation.mTicksPerSecond);`. -/
def nFrames (animation : AiAnimation) (settings : DisplayListSettings) : ℤ :=
  ⌈animation.mDuration * settings.mTicksPerSecond / animation.mTicksPerSecond⌉

/-- Lines 191–196: scan `animation.mChannels` for the first channel whose
node name equals the bone's name (`nullptr` when none matches). -/
def findChannel (channels : List AiNodeAnim) (name : String) :
    Option AiNodeAnim :=
  channels.find? (fun c => c.mNodeName == name)

/-- Lines 203–213, per bone and output frame, before the fixed-point
scale is applied: sample both tracks at
`at = frame * animation.mTicksPerSecond / settings.mTicksPerSecond` and,
only when the bone has no parent, rotate the position by the configured
root rotation, scale it by the model scale, and premultiply the rotation
by the root rotation. -/
def resampleBoneFrame (interp : Quat → Quat → ℚ → Quat)
    (nodeAnim : AiNodeAnim) (hasParent : Bool)
    (animTicksPerSecond targetTicksPerSecond modelScale : ℚ)
    (rotateModel : Quat) (frame : ℕ) : Vec3 × Quat :=
  let atTime := frame * animTicksPerSecond / targetTicksPerSecond
  let origin := evaluateVectorAt nodeAnim.mPositionKeys atTime
  let rotation := evaluateQuaternionAt interp nodeAnim.mRotationKeys atTime
  if hasParent then
    (origin, rotation)
  else
    (vscale modelScale (quatRotate rotateModel origin),
     quatMul rotateModel rotation)

/-- One slot of `allFrameData`; `std::vector::resize` value-initializes
`FrameData`, so a slot never written by the channel loop holds the
assimp defaults: position `(0,0,0)` and identity rotation. -/
structure FrameData where
  position : Vec3
  rotation : Quat
deriving DecidableEq, Repr

/-- Lines 179–218 for one `(bone, frame)` slot: bones with no matching
channel are skipped (`continue`), leaving the value-initialized default;
matched bones get the resampled pose, position scaled by
`settings.mFixedPointScale` (line 215). -/
def boneFrameData (interp : Quat → Quat → ℚ → Quat)
    (animation : AiAnimation) (settings : DisplayListSettings)
    (bone : BoneInfo) (frame : ℕ) : FrameData :=
  match findChannel animation.mChannels bone.name with
  | none => ⟨⟨0, 0, 0⟩, ⟨1, 0, 0, 0⟩⟩
  | some nodeAnim =>
    let rb := resampleBoneFrame interp nodeAnim bone.hasParent
      animation.mTicksPerSecond settings.mTicksPerSecond
      settings.mModelScale settings.mRotateModel frame
    ⟨vscale settings.mFixedPointScale rb.1, rb.2⟩

/-- The full `allFrameData` table (frames outer, bones inner). -/
def allFrameData (interp : Quat → Quat → ℚ → Quat)
    (animation : AiAnimation) (bones : List BoneInfo)
    (settings : DisplayListSettings) : List (List FrameData) :=
  (List.range (nFrames animation settings).toNat).map
    (fun frame => bones.map (fun bone =>
      boneFrameData interp animation settings bone frame))

/-- A C `(short)` cast of an in-range value: truncation toward zero. -/
def truncToInt (q : ℚ) : ℤ :=
  if q < 0 then -⌊-q⌋ else ⌊q⌋

/-- `std::numeric_limits<short>::max()`. -/
def shortMax : ℚ := 32767

/-- Lines 228–230: the three stored position components. -/
def quantizePosition (v : Vec3) : ℤ × ℤ × ℤ :=
  (truncToInt v.x, truncToInt v.y, truncToInt v.z)

/-- Lines 232–240: the three stored rotation components; when the
scalar part is negative the stored components are the negations of the
raw `x, y, z`, each scaled by `shortMax` and truncated. -/
def quantizeRotation (r : Quat) : ℤ × ℤ × ℤ :=
  if r.w < 0 then
    (truncToInt (-r.x * shortMax), truncToInt (-r.y * shortMax),
     truncToInt (-r.z * shortMax))
  else
    (truncToInt (r.x * shortMax), truncToInt (r.y * shortMax),
     truncToInt (r.z * shortMax))

/-- The quantized form of one emitted `SKAnimationBoneFrame`. -/
def quantizeFrame (fd : FrameData) : (ℤ × ℤ × ℤ) × (ℤ × ℤ × ℤ) :=
  (quantizePosition fd.position, quantizeRotation fd.rotation)

/-- The `_clip` record emitted at lines 251–256: frame count, bone
count, frame-data reference, target tick rate. -/
structure SKAnimationClipRecord where
  name : String
  frameCount : ℤ
  boneCount : ℕ
  ticksPerSecond : ℚ

/-- Lines 249–256: `generateanimationV2` always emits exactly one clip
record for its animation, whatever the channels matched. -/
def generateanimationV2clip (animation : AiAnimation)
    (bones : List BoneInfo) (settings : DisplayListSettings) :
    SKAnimationClipRecord :=
  { name := animation.mName ++ "_clip"
    frameCount := nFrames animation settings
    boneCount := bones.length
    ticksPerSecond := settings.mTicksPerSecond }

/-- Lines 259–263: `generateAnimationDataV2` loops over every animation
of the scene unconditionally. -/
def generateAnimationDataV2clips (sceneAnimations : List AiAnimation)
    (bones : List BoneInfo) (settings : DisplayListSettings) :
    List SKAnimationClipRecord :=
  sceneAnimations.map (fun a => generateanimationV2clip a bones settings)

/-- Modelled from the spec: `translateAnimationToSK`
(AnimationTranslator.cpp, outside the analyzed sources) reports whether
the clip produced any usable channel — "a clip that produces zero usable
channels across all bones is excluded entirely from the output clip set
(not emitted, not an error)"; a channel is usable when it matches a bone
of the canonical bone list by exact name. -/
def translateAnimationToSKOk (animation : AiAnimation)
    (bones : List BoneInfo) : Bool :=
  animation.mChannels.any (fun c => bones.any (fun b => b.name == c.mNodeName))

/-- The V1 header entry (lines 85–89) restricted to the fields the
claims mention. -/
structure SKAnimationHeader where
  animationName : String
  ticksPerSecond : ℚ

/-- Lines 79–93: `generateAnimationData` pushes a header only for
animations accepted by `translateAnimationToSK`. -/
def generateAnimationData (sceneAnimations : List AiAnimation)
    (bones : List BoneInfo) (targetTicksPerSecond : ℚ) :
    List SKAnimationHeader :=
  sceneAnimations.filterMap (fun a =>
    if translateAnimationToSKOk a bones then
      some ⟨a.mName, targetTicksPerSecond⟩
    else
      none)

/-!
### Hierarchy resolution (`findNodesForWithAnimation`, lines 10–74)
-/

/-- A 4×4 affine transform (`aiMatrix4x4`) over exact rationals. -/
abbrev Mat4 := Matrix (Fin 4) (Fin 4) ℚ

/-- `aiNode`: name, local transform, and children.  Parent pointers are
represented where needed by passing a node's ancestor chain explicitly
(nearest ancestor first). -/
inductive AiNode where
  | mk (name : String) (transformation : Mat4) (children : List AiNode)

/-- The node's name (`mName`). -/
def AiNode.name : AiNode → String
  | .mk n _ _ => n

/-- The node's local transform (`mTransformation`). -/
def AiNode.transformation : AiNode → Mat4
  | .mk _ t _ => t

/-- The node's children (`mChildren`). -/
def AiNode.children : AiNode → List AiNode
  | .mk _ _ ch => ch

mutual

/-- Modelled from the spec: `forEachNode` (DefinitionGenerator.cpp,
outside the analyzed sources) performs a "single depth-first traversal
of the tree from the root, in visitation order", visiting a node before
its children. `dfsNodes` lists the nodes in that visitation order. -/
def dfsNodes : AiNode → List AiNode
  | .mk n t ch => .mk n t ch :: dfsList ch

/-- Depth-first visitation of a child list, left to right. -/
def dfsList : List AiNode → List AiNode
  | [] => []
  | c :: cs => dfsNodes c ++ dfsList cs

end

/-- Lines 35–44: `nodeOrder` maps each visited node to its visitation
index.  Pointer identity of the C++ nodes is modelled by pairing each
node with that index: the entries are exactly `(dfsNodes root).enum`. -/
def nodeOrderEntries (root : AiNode) : List (ℕ × AiNode) :=
  (dfsNodes root).enum

/-- Lines 38–42 restricted to the relevant nodes: the contents of
`nodesWithAnimationData`, listed in visitation order.  `rel` abstracts
the test `animatedNodeNames.find(node->mName.C_Str()) != end()`. -/
def relevantEntries (root : AiNode) (rel : AiNode → Bool) :
    List (ℕ × AiNode) :=
  (nodeOrderEntries root).filter (fun p => rel p.2)

/-- Lines 69–71: `std::sort` with comparator
`nodeOrder[a->node] < nodeOrder[b->node]`; modelled as a merge sort with
the comparator's reflexive closure, which has the same result on
distinct keys. -/
def sortByNodeOrder (l : List (ℕ × AiNode)) : List (ℕ × AiNode) :=
  l.mergeSort (fun a b => a.1 ≤ b.1)

/-- Line 60: `aiMatrix4x4(aiVector3D(1,1,1) * modelScale, aiQuaternion(),
aiVector3D())` — a pure uniform scaling transform. -/
def scaleMatrix (s : ℚ) : Mat4 :=
  Matrix.diagonal ![s, s, s, 1]

/-- Lines 51–64: the ancestor walk.  `ancestors` is the node's ancestor
chain, nearest first; `acc` is `nodeInfo->relativeTransform`
(initialized to the identity by the `AnimationNodeInfo` constructor).
While the next ancestor exists and is not itself relevant, its local
transform is left-multiplied onto the accumulator; reaching the root
left-multiplies the model-scale transform.  Returns the final relative
transform and the resolved structural parent (`nodeInfo->parent`). -/
def walkUp (rel : AiNode → Bool) (modelScale : ℚ) :
    List AiNode → Mat4 → Mat4 × Option AiNode
  | [], acc => (scaleMatrix modelScale * acc, none)
  | p :: rest, acc =>
    if rel p then (acc, some p)
    else walkUp rel modelScale rest (p.transformation * acc)

/-!
### Theorems
-/

/-- Ancestor walk over a chain with no relevant ancestor: every local
transform is accumulated and the model-scale transform ends up as the
outermost factor; the resolved parent is `none`. -/
theorem walkUp_all_irrelevant (rel : AiNode → Bool) (ms : ℚ) :
    ∀ (l : List AiNode) (acc : Mat4), (∀ a ∈ l, rel a = false) →
      walkUp rel ms l acc =
        (scaleMatrix ms * l.foldl (fun m p => p.transformation * m) acc, none) := by
  intro l
  induction l with
  | nil => intro acc _; simp [walkUp]
  | cons p rest ih =>
    intro acc h
    have hp : rel p = false := h p (by simp)
    simp only [walkUp, hp, Bool.false_eq_true, if_false, List.foldl_cons]
    exact ih _ (fun a ha => h a (List.mem_cons_of_mem _ ha))

/-- C5: a relevant node whose immediate ancestor is irrelevant and whose
next ancestor is relevant gets exactly the irrelevant ancestor's local
transform as its relative transform (the walk stops at the relevant
ancestor without including its transform, and resolves it as the
structural parent); and when no ancestor is relevant, the walk reaches
the root and the uniform model-scale transform is applied as an
additional outermost (leftmost) factor of the accumulated transforms. -/
theorem walkUp_relative_transform :
    (∀ (rel : AiNode → Bool) (ms : ℚ) (P G : AiNode),
      rel P = false → rel G = true →
      walkUp rel ms [P, G] 1 = (P.transformation, some G))
    ∧ (∀ (rel : AiNode → Bool) (ms : ℚ) (ancestors : List AiNode),
      (∀ a ∈ ancestors, rel a = false) →
      (walkUp rel ms ancestors 1).1 =
        scaleMatrix ms * ancestors.foldl (fun m p => p.transformation * m) 1) := by
  constructor
  · intro rel ms P G hP hG
    simp [walkUp, hP, hG, Matrix.mul_one]
  · intro rel ms ancestors h
    rw [walkUp_all_irrelevant rel ms ancestors 1 h]

def wNodeP : AiNode := .mk "p" (scaleMatrix 2) []

def wNodeG : AiNode := .mk "g" 1 []

def wRel : AiNode → Bool := fun n => n.name == "g"

/-- Witness for the ancestor-walk theorem on a concrete two-ancestor
chain with an irrelevant parent and a relevant grandparent, plus a
concrete fully-irrelevant chain. -/
theorem walkUp_witness :
    wRel wNodeP = false ∧ wRel wNodeG = true ∧
    walkUp wRel 3 [wNodeP, wNodeG] 1 = (wNodeP.transformation, some wNodeG) ∧
    (walkUp wRel 3 [wNodeP] 1).1 =
      scaleMatrix 3 * [wNodeP].foldl (fun m p => p.transformation * m) 1 :=
  ⟨rfl, rfl, walkUp_relative_transform.1 wRel 3 wNodeP wNodeG rfl rfl,
    walkUp_relative_transform.2 wRel 3 [wNodeP]
      (by intro a ha; simp only [List.mem_singleton] at ha; subst ha; rfl)⟩

/-- C4: a bone with a structural parent is untouched by the configured
model scale and root rotation — its pre-fixed-point-scale resampled pose
is identical across runs that differ only in those settings; a root bone
receives exactly the correction: position rotated by the root rotation
then scaled by the model scale, rotation premultiplied by the root
rotation. -/
theorem resampleBoneFrame_root_only_correction :
    (∀ (interp : Quat → Quat → ℚ → Quat) (nodeAnim : AiNodeAnim)
       (animTps targetTps ms₁ ms₂ : ℚ) (rm₁ rm₂ : Quat) (frame : ℕ),
      resampleBoneFrame interp nodeAnim true animTps targetTps ms₁ rm₁ frame =
        resampleBoneFrame interp nodeAnim true animTps targetTps ms₂ rm₂ frame)
    ∧ (∀ (interp : Quat → Quat → ℚ → Quat) (nodeAnim : AiNodeAnim)
       (animTps targetTps ms : ℚ) (rm : Quat) (frame : ℕ),
      resampleBoneFrame interp nodeAnim false animTps targetTps ms rm frame =
        (vscale ms (quatRotate rm (evaluateVectorAt nodeAnim.mPositionKeys
            (frame * animTps / targetTps))),
         quatMul rm (evaluateQuaternionAt interp nodeAnim.mRotationKeys
            (frame * animTps / targetTps)))) := by
  constructor
  · intro interp nodeAnim animTps targetTps ms₁ ms₂ rm₁ rm₂ frame
    simp [resampleBoneFrame]
  · intro interp nodeAnim animTps targetTps ms rm frame
    simp [resampleBoneFrame]

/-- C3: quantizing a rotation stores the raw `x, y, z` when the scalar
part is non-negative and their negations when it is negative; in both
cases the stored components are those of the sign-normalized quaternion
(scaled by the maximum signed 16-bit value and truncated), and the
sign-normalized quaternion — `±r`, the same rotation — has non-negative
scalar part, so the omitted `w` can be reconstructed as non-negative. -/
theorem quantizeRotation_sign_normalized (r : Quat) :
    quantizeRotation r =
      (truncToInt ((if r.w < 0 then quatNeg r else r).x * shortMax),
       truncToInt ((if r.w < 0 then quatNeg r else r).y * shortMax),
       truncToInt ((if r.w < 0 then quatNeg r else r).z * shortMax))
    ∧ 0 ≤ (if r.w < 0 then quatNeg r else r).w
    ∧ ((if r.w < 0 then quatNeg r else r) = r ∨
       (if r.w < 0 then quatNeg r else r) = quatNeg r)
    ∧ (r.w < 0 → quantizeRotation r =
        (truncToInt (-r.x * shortMax), truncToInt (-r.y * shortMax),
         truncToInt (-r.z * shortMax)))
    ∧ (0 ≤ r.w → quantizeRotation r =
        (truncToInt (r.x * shortMax), truncToInt (r.y * shortMax),
         truncToInt (r.z * shortMax))) := by
  by_cases h : r.w < 0
  · refine ⟨?_, ?_, Or.inr ?_, fun _ => ?_, fun hw => absurd h (not_lt.mpr hw)⟩
    · simp [quantizeRotation, quatNeg, h]
    · simp only [if_pos h, quatNeg]; linarith
    · simp [if_pos h]
    · simp [quantizeRotation, h]
  · refine ⟨?_, ?_, Or.inl ?_, fun hw => absurd hw h, fun _ => ?_⟩
    · simp [quantizeRotation, h]
    · simp only [if_neg h]; exact le_of_not_lt h
    · simp [if_neg h]
    · simp [quantizeRotation, h]

/-- Witness for the rotation-quantization theorem at a concrete
negative-scalar quaternion and a concrete non-negative-scalar one. -/
theorem quantizeRotation_witness :
    ((-1 : ℚ)/2 < 0) ∧
    quantizeRotation ⟨-1/2, 1/2, -1/2, 1/2⟩ =
      (truncToInt (-(1/2) * shortMax), truncToInt (-(-1/2) * shortMax),
       truncToInt (-(1/2) * shortMax)) ∧
    ((0 : ℚ) ≤ 1) ∧
    quantizeRotation ⟨1, 0, 0, 0⟩ =
      (truncToInt (0 * shortMax), truncToInt (0 * shortMax),
       truncToInt (0 * shortMax)) :=
  ⟨by norm_num,
   (quantizeRotation_sign_normalized ⟨-1/2, 1/2, -1/2, 1/2⟩).2.2.2.1 (by norm_num),
   by norm_num,
   (quantizeRotation_sign_normalized ⟨1, 0, 0, 0⟩).2.2.2.2 (by norm_num)⟩

/-- C9: in the V2 path a bone with no matching channel keeps, at every
frame, the value-initialized default pose — position `(0,0,0)` and
identity rotation — and that pose quantizes to three zero position
components and three zero rotation components. -/
theorem missing_channel_default_pose (interp : Quat → Quat → ℚ → Quat)
    (animation : AiAnimation) (settings : DisplayListSettings)
    (bone : BoneInfo) (frame : ℕ)
    (h : findChannel animation.mChannels bone.name = none) :
    boneFrameData interp animation settings bone frame =
      ⟨⟨0, 0, 0⟩, ⟨1, 0, 0, 0⟩⟩ ∧
    quantizeFrame (boneFrameData interp animation settings bone frame) =
      ((0, 0, 0), (0, 0, 0)) := by
  have h1 : boneFrameData interp animation settings bone frame =
      ⟨⟨0, 0, 0⟩, ⟨1, 0, 0, 0⟩⟩ := by
    simp [boneFrameData, h]
  refine ⟨h1, ?_⟩
  rw [h1]
  norm_num [quantizeFrame, quantizePosition, quantizeRotation, truncToInt,
    shortMax]

def c9Animation : AiAnimation := ⟨"walk", 10, 30, [⟨"knee", [], []⟩]⟩

def c9Bone : BoneInfo := ⟨"hip", false⟩

def c9Settings : DisplayListSettings := ⟨20, 1, 100, ⟨1, 0, 0, 0⟩⟩

/-- Witness for the missing-channel default pose at a concrete bone that
matches none of the clip's channels. -/
theorem missing_channel_witness :
    findChannel c9Animation.mChannels c9Bone.name = none ∧
    boneFrameData (fun a _ _ => a) c9Animation c9Settings c9Bone 0 =
      ⟨⟨0, 0, 0⟩, ⟨1, 0, 0, 0⟩⟩ ∧
    quantizeFrame (boneFrameData (fun a _ _ => a) c9Animation c9Settings c9Bone 0) =
      ((0, 0, 0), (0, 0, 0)) :=
  ⟨rfl,
   (missing_channel_default_pose (fun a _ _ => a) c9Animation c9Settings c9Bone 0 rfl).1,
   (missing_channel_default_pose (fun a _ _ => a) c9Animation c9Settings c9Bone 0 rfl).2⟩

/-- C1 (amended): the output frame count is `⌈sourceDuration × targetRate
/ sourceRate⌉` for every clip, and it is at least 1 whenever the source
duration and both tick rates are positive (the source applies no
minimum-1 clamp, so a zero-duration clip yields 0 frames). -/
theorem nFrames_eq_ceil_and_pos (animation : AiAnimation)
    (settings : DisplayListSettings) :
    nFrames animation settings =
      ⌈animation.mDuration * settings.mTicksPerSecond /
        animation.mTicksPerSecond⌉ ∧
    (0 < animation.mDuration → 0 < animation.mTicksPerSecond →
      0 < settings.mTicksPerSecond → 1 ≤ nFrames animation settings) := by
  refine ⟨rfl, fun hd hs ht => ?_⟩
  have hpos : 0 < animation.mDuration * settings.mTicksPerSecond /
      animation.mTicksPerSecond := by positivity
  have := Int.ceil_pos.mpr hpos
  unfold nFrames
  omega

def c1Animation : AiAnimation := ⟨"idle", 0, 30, []⟩

def c1Settings : DisplayListSettings := ⟨20, 1, 100, ⟨1, 0, 0, 0⟩⟩

/-- Counterexample to C1 as stated: a clip of duration 0 source ticks
gets `⌈0 × 20 / 30⌉ = 0` output frames, not at least 1. -/
theorem nFrames_zero_duration_counterexample :
    nFrames c1Animation c1Settings = 0 ∧
    ¬(1 ≤ nFrames c1Animation c1Settings) := by
  have h : nFrames c1Animation c1Settings = 0 := by
    norm_num [nFrames, c1Animation, c1Settings]
  exact ⟨h, by rw [h]; norm_num⟩

/-- Witness for the amended frame-count theorem at the spec's own
example: duration 100 at source rate 30 and target rate 20. -/
theorem nFrames_pos_witness :
    (0 : ℚ) < 100 ∧ (0 : ℚ) < 30 ∧ (0 : ℚ) < 20 ∧
    1 ≤ nFrames ⟨"run", 100, 30, []⟩ ⟨20, 1, 100, ⟨1, 0, 0, 0⟩⟩ :=
  ⟨by norm_num, by norm_num, by norm_num,
   (nFrames_eq_ceil_and_pos ⟨"run", 100, 30, []⟩ ⟨20, 1, 100, ⟨1, 0, 0, 0⟩⟩).2
     (by norm_num) (by norm_num) (by norm_num)⟩

/-- Spec example check: 100 source ticks at source rate 30 resampled to
rate 20 yields `⌈100 × 20 / 30⌉ = 67` frames. -/
example : nFrames ⟨"run", 100, 30, []⟩ ⟨20, 1, 100, ⟨1, 0, 0, 0⟩⟩ = 67 := by
  rw [show nFrames ⟨"run", 100, 30, []⟩ ⟨20, 1, 100, ⟨1, 0, 0, 0⟩⟩ =
    ⌈(100 * 20 : ℚ) / 30⌉ from rfl, Int.ceil_eq_iff]
  norm_num

/-- C2 (amended): a clip with zero usable channels is silently excluded
from the V1 animation-header output (not an error), but the V2 clip-record
path emits one clip record per source animation unconditionally,
including such clips. -/
theorem unusable_clip_skipped_v1_emitted_v2 (animation : AiAnimation)
    (bones : List BoneInfo) (settings : DisplayListSettings)
    (targetTps : ℚ)
    (h : translateAnimationToSKOk animation bones = false) :
    generateAnimationData [animation] bones targetTps = [] ∧
    generateAnimationDataV2clips [animation] bones settings =
      [generateanimationV2clip animation bones settings] := by
  constructor
  · simp [generateAnimationData, h]
  · simp [generateAnimationDataV2clips]

def c2Animation : AiAnimation := ⟨"wave", 10, 30, [⟨"limb", [], []⟩]⟩

def c2Bones : List BoneInfo := [⟨"hip", false⟩]

def c2Settings : DisplayListSettings := ⟨20, 1, 100, ⟨1, 0, 0, 0⟩⟩

/-- Counterexample to C2 as stated: a clip whose only channel matches no
bone still produces one V2 clip record, not zero output clip records. -/
theorem v2_emits_unusable_clip_counterexample :
    translateAnimationToSKOk c2Animation c2Bones = false ∧
    (generateAnimationDataV2clips [c2Animation] c2Bones c2Settings).length
      = 1 :=
  ⟨rfl, rfl⟩

/-- Witness for the amended skip/emit theorem at a concrete unusable
clip. -/
theorem unusable_clip_witness :
    translateAnimationToSKOk c2Animation c2Bones = false ∧
    generateAnimationData [c2Animation] c2Bones 20 = [] ∧
    generateAnimationDataV2clips [c2Animation] c2Bones c2Settings =
      [generateanimationV2clip c2Animation c2Bones c2Settings] :=
  ⟨rfl,
   (unusable_clip_skipped_v1_emitted_v2 c2Animation c2Bones c2Settings 20 rfl).1,
   (unusable_clip_skipped_v1_emitted_v2 c2Animation c2Bones c2Settings 20 rfl).2⟩

/-- When every key's time is strictly below the query, the scan falls off
the end: `startValue` ends at `i + length` and the factor keeps its
initialization. -/
theorem findStartValueGo_notfound {α : Type} (mTime : α → ℚ) (atTime : ℚ) :
    ∀ (l : List α) (i : ℕ) (prev : Option ℚ),
      (∀ a ∈ l, mTime a < atTime) →
      findStartValueGo mTime atTime l i prev = (i + l.length, 0) := by
  intro l
  induction l with
  | nil => intro i prev _; simp [findStartValueGo]
  | cons k rest ih =>
    intro i prev h
    have hk : mTime k < atTime := h k (by simp)
    simp only [findStartValueGo]
    rw [if_neg (not_le.mpr hk),
      ih (i + 1) (some (mTime k)) (fun a ha => h a (List.mem_cons_of_mem _ ha))]
    simp only [List.length_cons, Prod.mk.injEq]
    exact ⟨by omega, trivial⟩

/-- When the first key whose time reaches the query sits at index
`j > 0`, the scan stops there: `startValue` becomes `i + j - 1` and the
factor is computed from the times of keys `j - 1` and `j` (zero when
their difference is exactly 1). -/
theorem findStartValueGo_found {α : Type} (mTime : α → ℚ) (atTime : ℚ) :
    ∀ (l : List α) (j : ℕ) (hj : j < l.length), 0 < j →
      (∀ m (hm : m < j), mTime (l.get ⟨m, lt_trans hm hj⟩) < atTime) →
      atTime ≤ mTime (l.get ⟨j, hj⟩) →
      ∀ (i : ℕ) (prev : Option ℚ),
        findStartValueGo mTime atTime l i prev =
          (i + j - 1,
           if mTime (l.get ⟨j, hj⟩) - mTime (l.get ⟨j - 1, by omega⟩) = 1
           then 0
           else (atTime - mTime (l.get ⟨j - 1, by omega⟩)) /
             (mTime (l.get ⟨j, hj⟩) - mTime (l.get ⟨j - 1, by omega⟩))) := by
  intro l
  induction l with
  | nil => intro j hj; exact absurd hj (by simp)
  | cons k rest ih =>
    intro j hj hpos hbefore hfound i prev
    obtain ⟨j', rfl⟩ : ∃ j', j = j' + 1 := ⟨j - 1, by omega⟩
    have hk : mTime k < atTime := by simpa using hbefore 0 hpos
    simp only [findStartValueGo]
    rw [if_neg (not_le.mpr hk)]
    cases j' with
    | zero =>
      have hr : 0 < rest.length := by
        simp only [List.length_cons] at hj; omega
      obtain ⟨k', rest', rfl⟩ : ∃ k' rest', rest = k' :: rest' := by
        cases rest with
        | nil => simp at hr
        | cons a b => exact ⟨a, b, rfl⟩
      have hf' : atTime ≤ mTime k' := by simpa using hfound
      simp only [findStartValueGo]
      rw [if_pos hf']
      rcases eq_or_ne (mTime k' - mTime k) 1 with hd | hd <;> simp [hd]
    | succ j'' =>
      have hj' : j'' + 1 < rest.length := by
        simp only [List.length_cons] at hj; omega
      have hb' : ∀ m (hm : m < j'' + 1),
          mTime (rest.get ⟨m, lt_trans hm hj'⟩) < atTime := by
        intro m hm
        simpa using hbefore (m + 1) (by omega)
      have hf' : atTime ≤ mTime (rest.get ⟨j'' + 1, hj'⟩) := by
        simpa using hfound
      rw [ih (j'' + 1) hj' (by omega) hb' hf' (i + 1) (some (mTime k))]
      simp only [Prod.mk.injEq]
      constructor
      · omega
      · simp

/-- C7: over at least two keys, when the first key index `i` with time
`≥ at` has `i > 0`, the scan returns start index `i - 1` with
interpolation factor `(at − time[i−1]) / (time[i] − time[i−1])`, except
that a time delta of exactly 1 forces factor 0 — in which case vector
evaluation returns the earlier key's value. -/
theorem findStartValue_interpolation_factor :
    (∀ (α : Type) (mTime : α → ℚ) (keys : List α) (atTime : ℚ) (i : ℕ)
       (hi : i < keys.length), 2 ≤ keys.length → 0 < i →
       (∀ m (hm : m < i), mTime (keys.get ⟨m, lt_trans hm hi⟩) < atTime) →
       atTime ≤ mTime (keys.get ⟨i, hi⟩) →
       findStartValue mTime keys atTime =
         (i - 1,
          if mTime (keys.get ⟨i, hi⟩) - mTime (keys.get ⟨i - 1, by omega⟩) = 1
          then 0
          else (atTime - mTime (keys.get ⟨i - 1, by omega⟩)) /
            (mTime (keys.get ⟨i, hi⟩) - mTime (keys.get ⟨i - 1, by omega⟩))))
    ∧ (∀ (keys : List VectorKey) (atTime : ℚ) (i : ℕ)
       (hi : i < keys.length), 0 < i →
       (∀ m (hm : m < i), (keys.get ⟨m, lt_trans hm hi⟩).mTime < atTime) →
       atTime ≤ (keys.get ⟨i, hi⟩).mTime →
       (keys.get ⟨i, hi⟩).mTime - (keys.get ⟨i - 1, by omega⟩).mTime = 1 →
       evaluateVectorAt keys atTime = (keys.get ⟨i - 1, by omega⟩).mValue) := by
  constructor
  · intro α mTime keys atTime i hi h2 h0 hb hf
    have h := findStartValueGo_found mTime atTime keys i hi h0 hb hf 0 none
    rw [findStartValue, h]
    simp
  · intro keys atTime i hi h0 hb hf hd
    have hsv : findStartValue VectorKey.mTime keys atTime = (i - 1, 0) := by
      have h := findStartValueGo_found VectorKey.mTime atTime keys i hi h0 hb hf
        0 none
      rw [findStartValue, h, if_pos hd]
      simp
    have hl0 : ¬ keys.length = 0 := by omega
    have hl1 : ¬ keys.length = 1 := by omega
    have hne : ¬ (i - 1 = keys.length) := by omega
    simp only [evaluateVectorAt, hl0, hl1, if_false, hsv, hne]
    rw [List.getD_eq_get _ _ (by omega : i - 1 < keys.length)]
    simp [vadd, vscale, vsub]

def c7Keys : List VectorKey := [⟨0, ⟨5, 6, 7⟩⟩, ⟨1, ⟨8, 9, 10⟩⟩]

/-- Witness for the interpolation-factor theorem: two keys at times 0
and 1 queried at time 1 — the delta-equals-1 convention forces factor 0
and evaluation yields the earlier key's value. -/
theorem findStartValue_factor_witness :
    findStartValue VectorKey.mTime c7Keys 1 =
      (0,
       if (c7Keys.get ⟨1, by simp [c7Keys]⟩).mTime -
          (c7Keys.get ⟨0, by simp [c7Keys]⟩).mTime = 1
       then 0
       else (1 - (c7Keys.get ⟨0, by simp [c7Keys]⟩).mTime) /
         ((c7Keys.get ⟨1, by simp [c7Keys]⟩).mTime -
          (c7Keys.get ⟨0, by simp [c7Keys]⟩).mTime)) ∧
    evaluateVectorAt c7Keys 1 = (c7Keys.get ⟨0, by simp [c7Keys]⟩).mValue :=
  ⟨findStartValue_interpolation_factor.1 VectorKey VectorKey.mTime c7Keys 1 1
    (by simp [c7Keys]) (by simp [c7Keys]) (by omega)
    (by intro m hm; interval_cases m; norm_num [c7Keys])
    (by norm_num [c7Keys]),
   findStartValue_interpolation_factor.2 c7Keys 1 1
    (by simp [c7Keys]) (by omega)
    (by intro m hm; interval_cases m; norm_num [c7Keys])
    (by norm_num [c7Keys])
    (by norm_num [c7Keys])⟩

/-- The scan's result index is always in range: either it equals the key
count (no key reached the query time — the branch both evaluators guard
with an early return of the last key) or both it and its successor are
valid indices, so the interpolation branch only ever reads indices below
the key count. -/
theorem findStartValueGo_bounds {α : Type} (mTime : α → ℚ) (atTime : ℚ) :
    ∀ (l : List α) (i : ℕ) (prev : Option ℚ) (L : ℕ),
      i + l.length = L → 2 ≤ L →
      (findStartValueGo mTime atTime l i prev).1 = L ∨
      ((findStartValueGo mTime atTime l i prev).1 < L ∧
       (findStartValueGo mTime atTime l i prev).1 + 1 ≤ L - 1) := by
  intro l
  induction l with
  | nil =>
    intro i prev L hL _
    left
    show i = L
    simp only [List.length_nil] at hL
    omega
  | cons k rest ih =>
    intro i prev L hL h2
    simp only [findStartValueGo]
    by_cases hc : atTime ≤ mTime k
    · rw [if_pos hc]
      cases prev with
      | none =>
        right
        simp only [List.length_cons] at hL
        constructor <;> simp <;> omega
      | some tprev =>
        right
        simp only [List.length_cons] at hL
        by_cases hd : mTime k - tprev = 1 <;> simp [hd] <;> omega
    · rw [if_neg hc]
      exact ih (i + 1) (some (mTime k)) L
        (by simp only [List.length_cons] at hL; omega) h2

/-- C10: with at least two keys, `findStartValue` either reports
"no key reached the query" with start index exactly the key count
(guarded before any indexing) or returns a start index with
`start + 1 ≤ keyCount − 1`, so both evaluators only access indices in
`[0, keyCount)`. -/
theorem findStartValue_index_bounds {α : Type} (mTime : α → ℚ)
    (keys : List α) (atTime : ℚ) (h2 : 2 ≤ keys.length) :
    (findStartValue mTime keys atTime).1 = keys.length ∨
    ((findStartValue mTime keys atTime).1 < keys.length ∧
     (findStartValue mTime keys atTime).1 + 1 ≤ keys.length - 1) :=
  findStartValueGo_bounds mTime atTime keys 0 none keys.length (by omega) h2

def c10Keys : List VectorKey := [⟨0, ⟨0, 0, 0⟩⟩, ⟨2, ⟨1, 0, 0⟩⟩]

/-- Witness for the index-bounds theorem on a concrete two-key track. -/
theorem findStartValue_bounds_witness :
    2 ≤ c10Keys.length ∧
    ((findStartValue VectorKey.mTime c10Keys 1).1 = c10Keys.length ∨
     ((findStartValue VectorKey.mTime c10Keys 1).1 < c10Keys.length ∧
      (findStartValue VectorKey.mTime c10Keys 1).1 + 1 ≤ c10Keys.length - 1)) :=
  ⟨by simp [c10Keys],
   findStartValue_index_bounds VectorKey.mTime c10Keys 1 (by simp [c10Keys])⟩

/-- In a track whose times are pairwise non-decreasing, no time exceeds
the last key's time. -/
theorem time_le_getLast {α : Type} (mTime : α → ℚ) :
    ∀ (l : List α) (hne : l ≠ []) (a : α), a ∈ l →
      l.Pairwise (fun x y => mTime x ≤ mTime y) →
      mTime a ≤ mTime (l.getLast hne) := by
  intro l
  induction l with
  | nil => intro hne; exact absurd rfl hne
  | cons x rest ih =>
    intro hne a ha hp
    cases rest with
    | nil =>
      have : a = x := by simpa using ha
      subst this
      simp [List.getLast]
    | cons y rest' =>
      rw [List.getLast_cons (by simp)]
      rcases List.mem_cons.mp ha with rfl | ha'
      · exact (List.pairwise_cons.mp hp).1 _ (List.getLast_mem (by simp))
      · exact ih (by simp) a ha' (List.pairwise_cons.mp hp).2

/-- C8 (amended): for a non-decreasing non-empty track, a query strictly
after the last key's time makes both evaluators return the last key's
value exactly, with no extrapolation.  (At a query exactly equal to the
last key's time the scan still finds that key and may interpolate — see
the counterexample — so "at or after" does not hold in general.) -/
theorem evaluate_after_last_key :
    (∀ (keys : List VectorKey) (atTime : ℚ) (hne : keys ≠ []),
      keys.Pairwise (fun a b => a.mTime ≤ b.mTime) →
      (keys.getLast hne).mTime < atTime →
      evaluateVectorAt keys atTime = (keys.getLast hne).mValue)
    ∧ (∀ (interp : Quat → Quat → ℚ → Quat) (keys : List QuatKey)
       (atTime : ℚ) (hne : keys ≠ []),
      keys.Pairwise (fun a b => a.mTime ≤ b.mTime) →
      (keys.getLast hne).mTime < atTime →
      evaluateQuaternionAt interp keys atTime = (keys.getLast hne).mValue) := by
  constructor
  · intro keys atTime hne hp hlast
    have hall : ∀ k ∈ keys, VectorKey.mTime k < atTime := fun k hk =>
      lt_of_le_of_lt (time_le_getLast VectorKey.mTime keys hne k hk hp) hlast
    have hsv : findStartValue VectorKey.mTime keys atTime =
        (keys.length, 0) := by
      have h := findStartValueGo_notfound VectorKey.mTime atTime keys 0 none hall
      rw [findStartValue, h]
      simp
    rcases Nat.lt_or_ge keys.length 2 with hlt | hge
    · have h1 : keys.length = 1 := by
        have := List.length_pos.mpr hne
        omega
      obtain ⟨a, rfl⟩ := List.length_eq_one.mp h1
      simp [evaluateVectorAt, List.getLast]
    · have h0 : ¬ keys.length = 0 := by omega
      have h1 : ¬ keys.length = 1 := by omega
      simp only [evaluateVectorAt, h0, h1, if_false, hsv]
      rw [if_pos trivial]
      rw [List.getD_eq_get _ _ (by omega : keys.length - 1 < keys.length),
        ← List.getLast_eq_get]
  · intro interp keys atTime hne hp hlast
    have hall : ∀ k ∈ keys, QuatKey.mTime k < atTime := fun k hk =>
      lt_of_le_of_lt (time_le_getLast QuatKey.mTime keys hne k hk hp) hlast
    have hsv : findStartValue QuatKey.mTime keys atTime =
        (keys.length, 0) := by
      have h := findStartValueGo_notfound QuatKey.mTime atTime keys 0 none hall
      rw [findStartValue, h]
      simp
    rcases Nat.lt_or_ge keys.length 2 with hlt | hge
    · have h1 : keys.length = 1 := by
        have := List.length_pos.mpr hne
        omega
      obtain ⟨a, rfl⟩ := List.length_eq_one.mp h1
      simp [evaluateQuaternionAt, List.getLast]
    · have h0 : ¬ keys.length = 0 := by omega
      have h1 : ¬ keys.length = 1 := by omega
      simp only [evaluateQuaternionAt, h0, h1, if_false, hsv]
      rw [if_pos trivial]
      rw [List.getD_eq_get _ _ (by omega : keys.length - 1 < keys.length),
        ← List.getLast_eq_get]

def c8Keys : List VectorKey := [⟨0, ⟨0, 0, 0⟩⟩, ⟨1, ⟨1, 0, 0⟩⟩]

/-- Counterexample to C8 as stated: with keys at times 0 and 1, the
query time 1 is "at" the last key's time, yet evaluation returns the
first key's value `(0,0,0)` — the scan finds the last key, and the
delta-equals-1 convention forces interpolation factor 0 from the earlier
key — not the last key's value `(1,0,0)`. -/
theorem evaluate_at_last_key_counterexample :
    (c8Keys.getLast (by simp [c8Keys])).mTime ≤ 1 ∧
    (c8Keys.getLast (by simp [c8Keys])).mValue = ⟨1, 0, 0⟩ ∧
    evaluateVectorAt c8Keys 1 = ⟨0, 0, 0⟩ ∧
    (⟨0, 0, 0⟩ : Vec3) ≠ ⟨1, 0, 0⟩ := by
  refine ⟨by norm_num [c8Keys], by norm_num [c8Keys], ?_, ?_⟩
  · norm_num [c8Keys, evaluateVectorAt, findStartValue, findStartValueGo,
      vadd, vsub, vscale]
  · intro h
    have := congrArg Vec3.x h
    norm_num at this

/-- Witness for the amended after-last-key theorem on concrete
two-key tracks queried strictly past the last key. -/
theorem evaluate_after_last_key_witness :
    c8Keys.Pairwise (fun a b => a.mTime ≤ b.mTime) ∧
    (c8Keys.getLast (by simp [c8Keys])).mTime < 2 ∧
    evaluateVectorAt c8Keys 2 = (c8Keys.getLast (by simp [c8Keys])).mValue ∧
    evaluateQuaternionAt (fun a _ _ => a)
        [⟨0, ⟨1, 0, 0, 0⟩⟩, ⟨1, ⟨0, 1, 0, 0⟩⟩] 2 =
      (([⟨0, ⟨1, 0, 0, 0⟩⟩, ⟨1, ⟨0, 1, 0, 0⟩⟩] :
          List QuatKey).getLast (by simp)).mValue :=
  ⟨by norm_num [c8Keys, List.pairwise_cons],
   by norm_num [c8Keys],
   evaluate_after_last_key.1 c8Keys 2 (by simp [c8Keys])
     (by norm_num [c8Keys, List.pairwise_cons]) (by norm_num [c8Keys]),
   evaluate_after_last_key.2 (fun a _ _ => a)
     [⟨0, ⟨1, 0, 0, 0⟩⟩, ⟨1, ⟨0, 1, 0, 0⟩⟩] 2 (by simp)
     (by norm_num [List.pairwise_cons]) (by norm_num)⟩

/-- Every entry of `enumFrom n` carries an index at least `n`. -/
theorem le_fst_of_mem_enumFrom {α : Type} :
    ∀ (l : List α) (n : ℕ) (p : ℕ × α), p ∈ l.enumFrom n → n ≤ p.1 := by
  intro l
  induction l with
  | nil => intro n p hp; simp at hp
  | cons a rest ih =>
    intro n p hp
    rw [List.enumFrom_cons] at hp
    rcases List.mem_cons.mp hp with rfl | hp'
    · exact le_refl n
    · exact le_trans (Nat.le_succ n) (ih (n + 1) p hp')

/-- The visitation indices produced by enumeration are strictly
increasing along the list. -/
theorem pairwise_fst_lt_enumFrom {α : Type} :
    ∀ (l : List α) (n : ℕ),
      (l.enumFrom n).Pairwise (fun a b => a.1 < b.1) := by
  intro l
  induction l with
  | nil => intro n; simp
  | cons a rest ih =>
    intro n
    rw [List.enumFrom_cons]
    exact List.pairwise_cons.mpr
      ⟨fun p hp => lt_of_lt_of_le (Nat.lt_succ_self n)
        (le_fst_of_mem_enumFrom rest (n + 1) p hp), ih (n + 1)⟩

/-- The relevant entries keep strictly increasing visitation indices. -/
theorem pairwise_fst_lt_relevantEntries (root : AiNode) (rel : AiNode → Bool) :
    (relevantEntries root rel).Pairwise (fun a b => a.1 < b.1) := by
  unfold relevantEntries nodeOrderEntries List.enum
  exact List.Pairwise.filter _ (pairwise_fst_lt_enumFrom (dfsNodes root) 0)

/-- C6: sorting any permutation of the relevant `(visitation index,
node)` entries by visitation index reproduces exactly the entries in
depth-first visitation order — the resolved list is ordered by the
source tree's visitation order and is independent of the iteration
order of the relevant-node set. -/
theorem sorted_output_matches_dfs_order (root : AiNode)
    (rel : AiNode → Bool) (l : List (ℕ × AiNode))
    (hperm : l.Perm (relevantEntries root rel)) :
    sortByNodeOrder l = relevantEntries root rel := by
  have hR : (relevantEntries root rel).Pairwise (fun a b => a.1 < b.1) :=
    pairwise_fst_lt_relevantEntries root rel
  have hperm2 : (sortByNodeOrder l).Perm (relevantEntries root rel) :=
    (List.mergeSort_perm l _).trans hperm
  have hsorted : (sortByNodeOrder l).Pairwise (fun a b => a.1 ≤ b.1) := by
    have h := @List.sorted_mergeSort (ℕ × AiNode)
      (fun a b => decide (a.1 ≤ b.1))
      (by intro a b c h1 h2; simp at h1 h2 ⊢; omega)
      (by intro a b; simp; omega) l
    exact h.imp (fun hab => of_decide_eq_true hab)
  have hnodup : (sortByNodeOrder l).Pairwise (fun a b => a.1 ≠ b.1) := by
    refine (List.Perm.pairwise_iff ?_ hperm2).mpr
      (hR.imp (fun h => Nat.ne_of_lt h))
    intro x y h
    exact h ∘ Eq.symm
  have hsortedlt : (sortByNodeOrder l).Pairwise (fun a b => a.1 < b.1) :=
    (hsorted.and hnodup).imp (fun h => lt_of_le_of_ne h.1 h.2)
  haveI : IsAntisymm (ℕ × AiNode) (fun a b => a.1 < b.1) :=
    ⟨fun a b h1 h2 => absurd h1 (Nat.lt_asymm h2)⟩
  exact List.eq_of_perm_of_sorted hperm2 hsortedlt hR

def c6NodeA : AiNode := .mk "a" 1 []

def c6NodeB : AiNode := .mk "b" 1 []

def c6Root : AiNode := .mk "root" 1 [c6NodeA, c6NodeB]

def c6Rel : AiNode → Bool := fun n => n.name == "a" || n.name == "b"

/-- Witness for the ordering theorem: feeding the two relevant entries
in the reversed (non-visitation) order still sorts back to visitation
order. -/
theorem sorted_output_witness :
    ([(2, c6NodeB), (1, c6NodeA)] : List (ℕ × AiNode)).Perm
      (relevantEntries c6Root c6Rel) ∧
    sortByNodeOrder [(2, c6NodeB), (1, c6NodeA)] =
      relevantEntries c6Root c6Rel := by
  have he : relevantEntries c6Root c6Rel = [(1, c6NodeA), (2, c6NodeB)] := rfl
  have hp : ([(2, c6NodeB), (1, c6NodeA)] : List (ℕ × AiNode)).Perm
      (relevantEntries c6Root c6Rel) := by
    rw [he]
    exact List.Perm.swap (1, c6NodeA) (2, c6NodeB) []
  exact ⟨hp, sorted_output_matches_dfs_order c6Root c6Rel _ hp⟩
